import Mathlib

-- Verification of the Resumflus backend (be/fastapi-backend/server.py).
-- The Python code is shallowly embedded: strings are lists of characters
-- (Unicode code points, as in Python), job rows mirror the jobs table, and
-- each piece of endpoint logic becomes an executable Lean function that is
-- translated line by line from the source.

namespace Resumflus

-- ===== Python string primitives =====

/-- The ASCII whitespace characters stripped by Python's str.strip(). -/
def pyWs (c : Char) : Bool :=
  c = ' ' || c = '\t' || c = '\n' || c = '\r' || c = Char.ofNat 11 || c = Char.ofNat 12

/-- Python str.lower(), per character (ASCII case mapping). -/
def lowerL (l : List Char) : List Char := l.map Char.toLower

/-- Drop the leading whitespace run (first half of str.strip()). -/
def dropWhileWs : List Char → List Char
  | [] => []
  | c :: rest => if pyWs c then dropWhileWs rest else c :: rest

/-- Drop the trailing whitespace run (second half of str.strip()). -/
def dropTrailWs : List Char → List Char
  | [] => []
  | c :: rest =>
    let r := dropTrailWs rest
    if r.isEmpty && pyWs c then [] else c :: r

/-- Python str.strip(). -/
def trimL (l : List Char) : List Char := dropTrailWs (dropWhileWs l)

/-- Python str.startswith: the first argument read at the head of the second. -/
def leadsWith : List Char → List Char → Bool
  | [], _ => true
  | _ :: _, [] => false
  | p :: ps, c :: rest => p == c && leadsWith ps rest

/-- Python's substring test `pat in s`. -/
def occurs (pat : List Char) : List Char → Bool
  | [] => pat.isEmpty
  | c :: rest => leadsWith pat (c :: rest) || occurs pat rest

/-- Python str.replace(c, '') for a single character: every occurrence is removed. -/
def removeCh (c : Char) (l : List Char) : List Char := l.filter (fun x => x ≠ c)

/-- Python str.startswith for a single character. -/
def startsCh (l : List Char) (c : Char) : Bool :=
  match l with
  | [] => false
  | x :: _ => x = c

/-- Python str.split(chr(10)): split at every newline, keeping empty pieces. -/
def splitNl : List Char → List (List Char)
  | [] => [[]]
  | c :: rest =>
    match splitNl rest with
    | [] => [[c]]
    | h :: t => if c = '\n' then [] :: h :: t else (c :: h) :: t

-- ===== Data model (jobs table and request payloads) =====

/-- A row of the jobs table as the matching endpoint reads it.  Every text
column is nullable in the schema, so each field is an Option. -/
structure JobRow where
  id : Int
  job_name : Option String
  title : Option String
  link : Option String
  description : Option String
  experience_level : Option String
  location : Option String
  company : Option String
  salary_range : Option String
  job_type : Option String
  remote_option : Option String
deriving DecidableEq, Repr

/-- The JobCreate request body: title required, the rest optional. -/
structure JobCreate where
  job_name : Option String
  title : String
  link : Option String
  description : Option String
  experience_level : Option String
  location : Option String
  company : Option String
  salary_range : Option String
  job_type : Option String
  remote_option : Option String
deriving DecidableEq, Repr

/-- The job dict embedded in each returned match (line 283-294 of server.py). -/
structure JobSummary where
  id : Int
  title : Option String
  company : Option String
  location : Option String
  experience_level : Option String
  job_type : Option String
  remote_option : Option String
  salary_range : Option String
  link : Option String
  description : Option String
deriving DecidableEq, Repr

/-- One entry of the job_matches list. -/
structure JobMatch where
  job : JobSummary
  relevance_score : Nat
  matched_skills : List (List Char)
deriving DecidableEq, Repr

-- ===== Scoring (lines 250-297 of server.py) =====

/-- Python `field or ''` on a nullable column. -/
def optData : Option String → List Char
  | none => []
  | some s => s.data

/-- job_text = f-string of title, description, job_name joined by single
spaces, lower-cased (line 269). -/
def jobTextData (j : JobRow) : List Char :=
  lowerL (optData j.title ++ ' ' :: (optData j.description ++ ' ' :: optData j.job_name))

/-- The per-keyword weight accumulation of lines 274-279.  Each summand
guards on Python truthiness of the column (non-None and non-empty) before
testing lower-cased substring containment. -/
def kwScore (j : JobRow) (kw : List Char) : Nat :=
  (match j.title with
   | some t => if !t.data.isEmpty && occurs kw (lowerL t.data) then 3 else 0
   | none => 0) +
  (match j.job_name with
   | some t => if !t.data.isEmpty && occurs kw (lowerL t.data) then 2 else 0
   | none => 0) +
  (match j.description with
   | some t => if !t.data.isEmpty && occurs kw (lowerL t.data) then 1 else 0
   | none => 0)

/-- The keyword loop of lines 266-279: the matched keywords in order, and the
accumulated relevance score. -/
def scoreJob (kws : List (List Char)) (j : JobRow) : List (List Char) × Nat :=
  match kws with
  | [] => ([], 0)
  | kw :: rest =>
    if occurs kw (jobTextData j) then
      (kw :: (scoreJob rest j).1, kwScore j kw + (scoreJob rest j).2)
    else scoreJob rest j

/-- keywords = [skill.lower().strip() for skill in skills]  (line 250). -/
def mkKeywords (skills : List String) : List (List Char) :=
  skills.map (fun s => trimL (lowerL s.data))

/-- Description truncation of line 293: descriptions longer than 250
characters are cut to 250 and an ellipsis marker is appended. -/
def truncDescription : Option String → Option String
  | none => none
  | some s =>
    if !s.data.isEmpty && decide (250 < s.data.length)
    then some (String.mk (s.data.take 250 ++ "...".data))
    else some s

/-- The "job" dict of a match (lines 283-294). -/
def jobSummary (j : JobRow) : JobSummary :=
  { id := j.id, title := j.title, company := j.company, location := j.location,
    experience_level := j.experience_level, job_type := j.job_type,
    remote_option := j.remote_option, salary_range := j.salary_range,
    link := j.link, description := truncDescription j.description }

/-- The candidate loop of lines 264-297: every retrieved job with at least one
matched keyword becomes a match entry. -/
def buildMatches (kws : List (List Char)) : List JobRow → List JobMatch
  | [] => []
  | j :: rest =>
    let p := scoreJob kws j
    if p.1.isEmpty then buildMatches kws rest
    else { job := jobSummary j, relevance_score := p.2, matched_skills := p.1 } :: buildMatches kws rest

/-- Insertion step of a stable descending sort: x goes in front of the first
element whose score does not exceed its own, so earlier elements win ties. -/
def insertScored (x : JobMatch) : List JobMatch → List JobMatch
  | [] => [x]
  | y :: ys =>
    if y.relevance_score ≤ x.relevance_score then x :: y :: ys
    else y :: insertScored x ys

/-- job_matches.sort(key=relevance_score, reverse=True) (line 300).  Python's
sort is stable and reverse=True keeps ties in their original order, which is
exactly the behavior of this stable descending insertion sort. -/
def sortScored : List JobMatch → List JobMatch
  | [] => []
  | x :: xs => insertScored x (sortScored xs)

/-- Lines 299-301: sort by relevance descending, then truncate to the limit. -/
def rankMatches (kws : List (List Char)) (jobs : List JobRow) (limit : Nat) : List JobMatch :=
  (sortScored (buildMatches kws jobs)).take limit

-- ===== Python values and the upload response (lines 204-318) =====

/-- The subset of Python values that json.loads can produce and that the
endpoint builds its JSONResponse payloads from. -/
inductive PyValue where
  | pyNone
  | pyBool (b : Bool)
  | pyInt (n : Int)
  | pyStr (s : String)
  | pyList (xs : List PyValue)
  | pyDict (kvs : List (String × PyValue))

/-- Association-list lookup for a Python dict. -/
def pyLookup (kvs : List (String × PyValue)) (key : String) : Option PyValue :=
  match kvs with
  | [] => none
  | (k, v) :: rest => if k = key then some v else pyLookup rest key

/-- Python dict.get(key, default), which raises AttributeError when the
receiver produced by json.loads is not a dict (that exception is not caught
by the json.JSONDecodeError handler of line 225). -/
def pyGet (v : PyValue) (key : String) (dflt : PyValue) : Except String PyValue :=
  match v with
  | .pyDict kvs => .ok ((pyLookup kvs key).getD dflt)
  | _ => .error "AttributeError"

/-- Whether a parsed value is a dict carrying the given key. -/
def hasKey (v : PyValue) (key : String) : Bool :=
  match v with
  | .pyDict kvs => (pyLookup kvs key).isSome
  | _ => false

/-- A nullable column rendered into the response JSON. -/
def optPy : Option String → PyValue
  | none => .pyNone
  | some s => .pyStr s

/-- The "job" dict of lines 283-294 rendered as a Python value. -/
def summaryToPy (s : JobSummary) : PyValue :=
  .pyDict [("id", .pyInt s.id), ("title", optPy s.title), ("company", optPy s.company),
           ("location", optPy s.location), ("experience_level", optPy s.experience_level),
           ("job_type", optPy s.job_type), ("remote_option", optPy s.remote_option),
           ("salary_range", optPy s.salary_range), ("link", optPy s.link),
           ("description", optPy s.description)]

/-- One entry of job_matches (lines 282-297) as a Python value. -/
def matchToPy (m : JobMatch) : PyValue :=
  .pyDict [("job", summaryToPy m.job), ("relevance_score", .pyInt m.relevance_score),
           ("matched_skills", .pyList (m.matched_skills.map (fun kw => .pyStr (String.mk kw))))]

/-- The body returned by upload_cv_and_get_jobs after the skills list is in
hand (lines 242-318): the early return for an empty skills list, else the
full recommendation payload built from the scored-and-ranked matches. -/
def uploadOutcome (cv_kvs : List (String × PyValue)) (skills : List String)
    (retrieved : List JobRow) (limit : Nat) : PyValue :=
  if skills.isEmpty then
    .pyDict [("cv_review", .pyDict cv_kvs), ("matching_jobs", .pyList []),
             ("message", .pyStr "No skills extracted - unable to match jobs")]
  else
    let job_matches := rankMatches (mkKeywords skills) retrieved limit
    .pyDict [("success", .pyBool true),
             ("cv_review", .pyDict
               [("summary", (pyLookup cv_kvs "summary").getD (.pyStr "")),
                ("strengths", (pyLookup cv_kvs "strengths").getD (.pyList [])),
                ("improvements", (pyLookup cv_kvs "improvements").getD (.pyList [])),
                ("experience_level", (pyLookup cv_kvs "experience_level").getD (.pyStr "Not specified")),
                ("extracted_skills", .pyList (skills.map (fun s => .pyStr s)))]),
             ("job_recommendations", .pyDict
               [("total_matches", .pyInt job_matches.length),
                ("jobs", .pyList (job_matches.map matchToPy))]),
             ("message", .pyStr ("Found " ++ toString job_matches.length ++ " matching jobs for your profile!"))]

-- ===== Model-response cleaning and fallback parsing (lines 213-239) =====

/-- One bounded pass of Python str.replace(pat, '') with pattern p :: ps:
scan left to right, removing each non-overlapping occurrence.  The fuel
argument bounds the recursion and is taken as the string length, which
always suffices since every step consumes at least one character. -/
def removeAllFuel (p : Char) (ps : List Char) : Nat → List Char → List Char
  | 0, s => s
  | _ + 1, [] => []
  | fuel + 1, c :: rest =>
    if leadsWith (p :: ps) (c :: rest) then removeAllFuel p ps fuel (rest.drop ps.length)
    else c :: removeAllFuel p ps fuel rest

/-- Python str.replace(pat, '') for a non-empty pattern. -/
def removeAll (p : Char) (ps : List Char) (s : List Char) : List Char :=
  removeAllFuel p ps s.length s

/-- str.replace(pat, '') with the pattern given as a string. -/
def removeAllL (pat : List Char) (s : List Char) : List Char :=
  match pat with
  | [] => s
  | p :: ps => removeAll p ps s

/-- The code-fence cleaning of lines 214-219: strip, then, only when the text
starts with a fence, remove every occurrence of the fence markers and strip
again. -/
def cleanResponse (txt : String) : List Char :=
  let c := trimL txt.data
  if leadsWith "```json".data c then
    trimL (removeAllL "```".data (removeAllL "```json".data c))
  else if leadsWith "```".data c then
    trimL (removeAllL "```".data c)
  else c

/-- line.strip().replace(chr(34), '').replace(',', '').strip()  (line 229). -/
def processLine (l : List Char) : List Char :=
  trimL (removeCh ',' (removeCh '"' (trimL l)))

/-- The filter of line 230: truthy, longer than 2 characters, and not
starting with a brace. -/
def keepLine (l : List Char) : Bool :=
  !l.isEmpty && decide (2 < l.length) && !startsCh l '{' && !startsCh l '}'

/-- The fallback loop of lines 227-231 over the split lines. -/
def fallbackLoop : List (List Char) → List (List Char)
  | [] => []
  | line :: rest =>
    let l := processLine line
    if keepLine l then l :: fallbackLoop rest else fallbackLoop rest

/-- skills extracted by the fallback branch from the raw response text. -/
def fallbackSkills (txt : String) : List (List Char) :=
  fallbackLoop (splitNl txt.data)

/-- The cv_analysis dict substituted by the fallback branch (lines 233-239). -/
def fallbackKvs (txt : String) : List (String × PyValue) :=
  [("summary", .pyStr "CV analysis completed"),
   ("strengths", .pyList [.pyStr "Experience in multiple technologies"]),
   ("improvements", .pyList [.pyStr "Consider adding more specific achievements"]),
   ("skills", .pyList ((fallbackSkills txt).map (fun l => .pyStr (String.mk l)))),
   ("experience_level", .pyStr "Not specified")]

/-- The try/except of lines 213-239: a successful json.loads result is used
as is; a JSONDecodeError (modelled as none) selects the fallback analysis,
so parsing never fails the request. -/
def parseCvResponse (txt : String) (parsed : Option PyValue) : PyValue :=
  match parsed with
  | some v => v
  | none => .pyDict (fallbackKvs txt)

-- ===== Bulk job creation (lines 372-422) =====

/-- One database session: rows already committed and rows pending insert. -/
structure DbSession where
  committed : List JobCreate
  pending : List JobCreate
deriving DecidableEq, Repr

/-- Whether a value fits a VARCHAR(n) column. -/
def optFits (n : Nat) : Option String → Bool
  | none => true
  | some s => decide (s.data.length ≤ n)

/-- Modelled from the spec: the relational store enforces the jobs-table
schema (String(255) and friends from lines 42-57) when a transaction is
committed; a row whose value exceeds its column length is rejected and the
commit raises.  The schema widths are taken from the source; the enforcement
itself happens in the external database. -/
def validCreate (j : JobCreate) : Bool :=
  decide (j.title.data.length ≤ 255) && optFits 255 j.job_name && optFits 500 j.link &&
  optFits 100 j.experience_level && optFits 255 j.location && optFits 255 j.company &&
  optFits 100 j.salary_range && optFits 50 j.job_type && optFits 50 j.remote_option

/-- db.add_all: stage the constructed rows on the session. -/
def dbAddAll (s : DbSession) (rows : List JobCreate) : DbSession :=
  { s with pending := s.pending ++ rows }

/-- Modelled from the spec: db.commit() applies every pending insert in one
transaction; if any row is invalid the whole transaction fails and nothing
is persisted. -/
def dbCommit (s : DbSession) : Except String DbSession :=
  if s.pending.all validCreate then .ok { committed := s.committed ++ s.pending, pending := [] }
  else .error "value too long for type"

/-- db.rollback(): discard the pending rows. -/
def dbRollback (s : DbSession) : DbSession :=
  { s with pending := [] }

/-- What an endpoint hands back: a JSON body or an HTTPException. -/
inductive Reply where
  | json (v : PyValue)
  | httpError (code : Nat) (detail : String)

/-- Whether a reply is an HTTP error. -/
def isErrorReply : Reply → Bool
  | .json _ => false
  | .httpError _ _ => true

/-- create_jobs_bulk (lines 372-422): build every row, add_all, commit; on
any failure roll back and return a 500 error. -/
def create_jobs_bulk (db : DbSession) (jobs : List JobCreate) : DbSession × Reply :=
  let db_jobs := jobs
  let staged := dbAddAll db db_jobs
  match dbCommit staged with
  | .ok db2 =>
      (db2, .json (.pyDict [("success", .pyBool true),
        ("message", .pyStr ("Successfully created " ++ toString db_jobs.length ++ " jobs")),
        ("count", .pyInt db_jobs.length)]))
  | .error e => (dbRollback staged, .httpError 500 ("Error creating jobs: " ++ e))

-- ===== Spec-side definitions (for refinement claims) =====

/-- Spec reading of one field test: the keyword is a case-insensitive
substring of the field (keywords arrive lower-cased); a missing field
matches nothing. -/
def specField : Option String → List Char → Bool
  | none, _ => false
  | some s, kw => occurs kw (lowerL s.data)

/-- Spec reading of the per-keyword weight: 3 for a title match plus 2 for a
job_name match plus 1 for a description match, all fields contributing
simultaneously. -/
def specKwScore (kw : List Char) (j : JobRow) : Nat :=
  (if specField j.title kw then 3 else 0) +
  (if specField j.job_name kw then 2 else 0) +
  (if specField j.description kw then 1 else 0)

/-- Spec reading of the relevance score: the sum of the per-keyword weights. -/
def specScore (kws : List (List Char)) (j : JobRow) : Nat :=
  (kws.map (fun kw => specKwScore kw j)).sum

/-- Spec reading of the fallback line processing: surrounding whitespace
stripped and quote and comma characters removed. -/
def specProcessLine (l : List Char) : List Char :=
  trimL (removeCh ',' (removeCh '"' l))

-- ===== Substring lemmas =====

theorem occurs_nil_pat (l : List Char) : occurs [] l = true := by
  cases l <;> rfl

theorem leadsWith_extend {p s : List Char} (t : List Char)
    (h : leadsWith p s = true) : leadsWith p (s ++ t) = true := by
  induction p generalizing s with
  | nil => rfl
  | cons x xs ih =>
    cases s with
    | nil => simp [leadsWith] at h
    | cons c rest =>
      simp only [leadsWith, Bool.and_eq_true] at h ⊢
      exact ⟨h.1, ih h.2⟩

theorem leadsWith_append_left {x y l : List Char}
    (h : leadsWith (x ++ y) l = true) : leadsWith x l = true := by
  induction x generalizing l with
  | nil => rfl
  | cons a xs ih =>
    cases l with
    | nil => simp [leadsWith] at h
    | cons c rest =>
      simp only [List.cons_append, leadsWith, Bool.and_eq_true] at h ⊢
      exact ⟨h.1, ih h.2⟩

theorem occurs_append_right {pat s : List Char} (t : List Char)
    (h : occurs pat s = true) : occurs pat (s ++ t) = true := by
  induction s with
  | nil =>
    simp only [occurs, List.isEmpty_iff] at h
    subst h
    exact occurs_nil_pat t
  | cons c rest ih =>
    simp only [occurs, Bool.or_eq_true] at h ⊢
    rcases h with h | h
    · exact Or.inl (leadsWith_extend t h)
    · exact Or.inr (ih h)

theorem occurs_append_left {pat s : List Char} (x : List Char)
    (h : occurs pat s = true) : occurs pat (x ++ s) = true := by
  induction x with
  | nil => exact h
  | cons a xs ih =>
    cases s with
    | nil =>
      simp only [occurs, List.isEmpty_iff] at h
      subst h
      simpa using occurs_nil_pat (a :: xs)
    | cons c rest =>
      simp only [List.cons_append, occurs, Bool.or_eq_true]
      exact Or.inr ih

theorem occurs_pat_append_left {x y l : List Char}
    (h : occurs (x ++ y) l = true) : occurs x l = true := by
  induction l with
  | nil =>
    simp only [occurs, List.isEmpty_iff, List.append_eq_nil] at h
    simp [occurs, h.1]
  | cons c rest ih =>
    simp only [occurs, Bool.or_eq_true] at h ⊢
    rcases h with h | h
    · exact Or.inl (leadsWith_append_left h)
    · exact Or.inr (ih h)

theorem leadsWith_cut {q a b : List Char} {c : Char} (hc : c ∉ q)
    (h : leadsWith q (a ++ c :: b) = true) : leadsWith q a = true := by
  induction q generalizing a with
  | nil => rfl
  | cons y q' ih =>
    cases a with
    | nil =>
      simp only [List.nil_append, leadsWith, Bool.and_eq_true, beq_iff_eq] at h
      exact absurd (h.1 ▸ List.mem_cons_self y q') hc
    | cons z a' =>
      simp only [List.cons_append, leadsWith, Bool.and_eq_true] at h ⊢
      exact ⟨h.1, ih (fun hm => hc (List.mem_cons_of_mem y hm)) h.2⟩

theorem occurs_cut {pat a b : List Char} {c : Char} (hc : c ∉ pat)
    (h : occurs pat (a ++ c :: b) = true) :
    occurs pat a = true ∨ occurs pat b = true := by
  induction a with
  | nil =>
    simp only [List.nil_append, occurs, Bool.or_eq_true] at h
    rcases h with h | h
    · have hq := leadsWith_cut (a := []) hc (by simpa using h)
      cases pat with
      | nil => exact Or.inl (occurs_nil_pat [])
      | cons p ps => simp [leadsWith] at hq
    · exact Or.inr h
  | cons x a' ih =>
    simp only [List.cons_append, occurs, Bool.or_eq_true] at h
    rcases h with h | h
    · have hq := leadsWith_cut (a := x :: a') hc (by simpa using h)
      exact Or.inl (by simp only [occurs, Bool.or_eq_true]; exact Or.inl hq)
    · rcases ih h with h' | h'
      · exact Or.inl (by simp only [occurs, Bool.or_eq_true]; exact Or.inr h')
      · exact Or.inr h'

-- ===== Trimming lemmas =====

theorem exists_dropWhileWs (l : List Char) :
    ∃ w, l = w ++ dropWhileWs l ∧ ∀ c ∈ w, pyWs c = true := by
  induction l with
  | nil => exact ⟨[], rfl, by simp⟩
  | cons c rest ih =>
    by_cases h : pyWs c = true
    · rcases ih with ⟨w, hw, hws⟩
      refine ⟨c :: w, ?_, ?_⟩
      · simp only [dropWhileWs, h, if_true, List.cons_append]
        exact congrArg (c :: ·) hw
      · intro x hx
        rcases List.mem_cons.mp hx with rfl | hx
        · exact h
        · exact hws x hx
    · refine ⟨[], ?_, by simp⟩
      simp [dropWhileWs, h]

theorem exists_dropTrailWs (l : List Char) :
    ∃ w, l = dropTrailWs l ++ w ∧ ∀ c ∈ w, pyWs c = true := by
  induction l with
  | nil => exact ⟨[], rfl, by simp⟩
  | cons c rest ih =>
    rcases ih with ⟨w, hw, hws⟩
    by_cases h : ((dropTrailWs rest).isEmpty && pyWs c) = true
    · rcases Bool.and_eq_true_iff.mp h with ⟨he, hc⟩
      refine ⟨c :: w, ?_, ?_⟩
      · simp only [dropTrailWs, h, if_true, List.nil_append]
        have : dropTrailWs rest = [] := List.isEmpty_iff.mp he
        rw [this] at hw
        simpa using congrArg (c :: ·) hw
      · intro x hx
        rcases List.mem_cons.mp hx with rfl | hx
        · exact hc
        · exact hws x hx
    · refine ⟨w, ?_, hws⟩
      simp only [dropTrailWs, h, if_false, List.cons_append]
      exact congrArg (c :: ·) hw

theorem occurs_trimL {pat l : List Char}
    (h : occurs pat (trimL l) = true) : occurs pat l = true := by
  rcases exists_dropWhileWs l with ⟨w1, hw1, _⟩
  rcases exists_dropTrailWs (dropWhileWs l) with ⟨w2, hw2, _⟩
  have h1 : occurs pat (dropWhileWs l) = true := by
    rw [hw2]
    exact occurs_append_right w2 h
  rw [hw1]
  exact occurs_append_left w1 h1

-- ===== Scoring lemmas =====

theorem toLower_space : Char.toLower ' ' = ' ' := rfl

theorem jobTextData_decomp (j : JobRow) :
    jobTextData j = lowerL (optData j.title) ++ ' ' ::
      (lowerL (optData j.description) ++ ' ' :: lowerL (optData j.job_name)) := by
  simp [jobTextData, lowerL, toLower_space]

theorem kw_isEmpty_false {kw : List Char} (hk : kw ≠ []) : kw.isEmpty = false := by
  cases kw with
  | nil => exact absurd rfl hk
  | cons a l => rfl

theorem fieldPart_le (o : Option String) (kw : List Char) (k : Nat) :
    (match o with
     | some t => if !t.data.isEmpty && occurs kw (lowerL t.data) then k else 0
     | none => 0) ≤ k := by
  cases o with
  | none => exact Nat.zero_le k
  | some t => dsimp only; split <;> omega

theorem kwScore_le_six (j : JobRow) (kw : List Char) : kwScore j kw ≤ 6 := by
  have h1 := fieldPart_le j.title kw 3
  have h2 := fieldPart_le j.job_name kw 2
  have h3 := fieldPart_le j.description kw 1
  unfold kwScore
  omega

theorem fieldPart_eq (o : Option String) {kw : List Char} (hk : kw ≠ []) (k : Nat) :
    (match o with
     | some t => if !t.data.isEmpty && occurs kw (lowerL t.data) then k else 0
     | none => 0) = (if specField o kw then k else 0) := by
  cases o with
  | none => simp [specField]
  | some t =>
    dsimp only [specField]
    by_cases ht : t.data.isEmpty
    · have hnil : t.data = [] := List.isEmpty_iff.mp ht
      simp [ht, hnil, lowerL, occurs, kw_isEmpty_false hk]
    · simp [ht]

theorem specField_occurs_jobText {j : JobRow} {kw : List Char}
    (h : (specField j.title kw = true) ∨ (specField j.job_name kw = true) ∨
         (specField j.description kw = true)) :
    occurs kw (jobTextData j) = true := by
  rw [jobTextData_decomp]
  rcases h with h | h | h
  · cases ht : j.title with
    | none => rw [ht] at h; simp [specField] at h
    | some t =>
      rw [ht] at h
      simp only [specField] at h
      exact occurs_append_right _ (by simpa [optData, ht] using h)
  · cases hn : j.job_name with
    | none => rw [hn] at h; simp [specField] at hn h
    | some t =>
      rw [hn] at h
      simp only [specField] at h
      refine occurs_append_left _ (occurs_append_left [' '] ?_)
      refine occurs_append_left _ (occurs_append_left [' '] ?_)
      simpa [optData, hn] using h
  · cases hd : j.description with
    | none => rw [hd] at h; simp [specField] at h
    | some t =>
      rw [hd] at h
      simp only [specField] at h
      refine occurs_append_left _ (occurs_append_left [' '] ?_)
      exact occurs_append_right _ (by simpa [optData, hd] using h)

theorem kwScore_eq_spec (j : JobRow) {kw : List Char} (hk : kw ≠ []) :
    (if occurs kw (jobTextData j) then kwScore j kw else 0) = specKwScore kw j := by
  by_cases ho : occurs kw (jobTextData j) = true
  · rw [if_pos ho]
    unfold kwScore specKwScore
    rw [fieldPart_eq j.title hk 3, fieldPart_eq j.job_name hk 2, fieldPart_eq j.description hk 1]
  · rw [if_neg ho]
    have h1 : specField j.title kw = false := by
      by_contra h
      exact ho (specField_occurs_jobText (Or.inl (Bool.of_not_eq_false h)))
    have h2 : specField j.job_name kw = false := by
      by_contra h
      exact ho (specField_occurs_jobText (Or.inr (Or.inl (Bool.of_not_eq_false h))))
    have h3 : specField j.description kw = false := by
      by_contra h
      exact ho (specField_occurs_jobText (Or.inr (Or.inr (Bool.of_not_eq_false h))))
    simp [specKwScore, h1, h2, h3]

theorem scoreJob_eq_spec (j : JobRow) (kws : List (List Char))
    (hk : ∀ kw ∈ kws, kw ≠ []) : (scoreJob kws j).2 = specScore kws j := by
  induction kws with
  | nil => rfl
  | cons kw rest ih =>
    have hkw : kw ≠ [] := hk kw (List.mem_cons_self kw rest)
    have hrest : ∀ k ∈ rest, k ≠ [] := fun k hm => hk k (List.mem_cons_of_mem kw hm)
    have hspec := kwScore_eq_spec j hkw
    simp only [scoreJob, specScore, List.map_cons, List.sum_cons]
    by_cases ho : occurs kw (jobTextData j) = true
    · rw [if_pos ho] at hspec ⊢
      simp only [ih hrest, hspec]
      rfl
    · rw [if_neg ho] at hspec ⊢
      rw [ih hrest, ← hspec]
      simp [specScore]

theorem kwScore_pos (j : JobRow) {kw : List Char} (hk : kw ≠ []) (hs : ' ' ∉ kw)
    (ho : occurs kw (jobTextData j) = true) : 1 ≤ kwScore j kw := by
  rw [jobTextData_decomp] at ho
  have hsplit := occurs_cut hs ho
  have hspec : (specField j.title kw = true) ∨ (specField j.job_name kw = true) ∨
      (specField j.description kw = true) := by
    rcases hsplit with h | h
    · left
      cases ht : j.title with
      | none =>
        rw [ht] at h
        simp [optData, lowerL, occurs, kw_isEmpty_false hk] at h
      | some t =>
        rw [ht] at h
        simpa [specField, optData, ht] using h
    · rcases occurs_cut hs h with h' | h'
      · right; right
        cases hd : j.description with
        | none =>
          rw [hd] at h'
          simp [optData, lowerL, occurs, kw_isEmpty_false hk] at h'
        | some t =>
          rw [hd] at h'
          simpa [specField, optData, hd] using h'
      · right; left
        cases hn : j.job_name with
        | none =>
          rw [hn] at h'
          simp [optData, lowerL, occurs, kw_isEmpty_false hk] at h'
        | some t =>
          rw [hn] at h'
          simpa [specField, optData, hn] using h'
  have hx : 1 ≤ specKwScore kw j := by
    unfold specKwScore
    rcases hspec with h | h | h <;> rw [h] <;> simp <;> omega
  have heq := kwScore_eq_spec j hk
  rw [if_pos (by rw [jobTextData_decomp]; exact ho)] at heq
  omega

theorem scoreJob_sublist (kws : List (List Char)) (j : JobRow) :
    (scoreJob kws j).1.Sublist kws := by
  induction kws with
  | nil => exact List.Sublist.refl []
  | cons kw rest ih =>
    simp only [scoreJob]
    by_cases ho : occurs kw (jobTextData j) = true
    · rw [if_pos ho]
      exact List.Sublist.cons₂ kw ih
    · rw [if_neg ho]
      exact List.Sublist.cons kw ih

theorem scoreJob_le (kws : List (List Char)) (j : JobRow) :
    (scoreJob kws j).2 ≤ 6 * (scoreJob kws j).1.length := by
  induction kws with
  | nil => simp [scoreJob]
  | cons kw rest ih =>
    simp only [scoreJob]
    by_cases ho : occurs kw (jobTextData j) = true
    · rw [if_pos ho]
      have h6 := kwScore_le_six j kw
      simp only [List.length_cons]
      omega
    · rw [if_neg ho]
      exact ih

theorem scoreJob_pos (j : JobRow) (kws : List (List Char))
    (hk : ∀ kw ∈ kws, kw ≠ [] ∧ ' ' ∉ kw)
    (hne : (scoreJob kws j).1 ≠ []) : 1 ≤ (scoreJob kws j).2 := by
  induction kws with
  | nil => exact absurd rfl hne
  | cons kw rest ih =>
    have hkw := hk kw (List.mem_cons_self kw rest)
    have hrest : ∀ k ∈ rest, k ≠ [] ∧ ' ' ∉ k := fun k hm => hk k (List.mem_cons_of_mem kw hm)
    simp only [scoreJob] at hne ⊢
    by_cases ho : occurs kw (jobTextData j) = true
    · rw [if_pos ho]
      have := kwScore_pos j hkw.1 hkw.2 ho
      omega
    · rw [if_neg ho] at hne ⊢
      exact ih hrest hne

-- ===== Sorting lemmas =====

theorem mem_insertScored {m x : JobMatch} {l : List JobMatch} :
    m ∈ insertScored x l ↔ m = x ∨ m ∈ l := by
  induction l with
  | nil => simp [insertScored]
  | cons y ys ih =>
    simp only [insertScored]
    by_cases h : y.relevance_score ≤ x.relevance_score
    · rw [if_pos h]
      simp [List.mem_cons]
    · rw [if_neg h]
      simp only [List.mem_cons, ih]
      tauto

theorem mem_sortScored {m : JobMatch} {l : List JobMatch} :
    m ∈ sortScored l ↔ m ∈ l := by
  induction l with
  | nil => simp [sortScored]
  | cons x xs ih =>
    simp only [sortScored, mem_insertScored, ih, List.mem_cons]

theorem length_insertScored (x : JobMatch) (l : List JobMatch) :
    (insertScored x l).length = l.length + 1 := by
  induction l with
  | nil => rfl
  | cons y ys ih =>
    simp only [insertScored]
    by_cases h : y.relevance_score ≤ x.relevance_score
    · rw [if_pos h]; rfl
    · rw [if_neg h]
      simp [ih]

theorem length_sortScored (l : List JobMatch) :
    (sortScored l).length = l.length := by
  induction l with
  | nil => rfl
  | cons x xs ih =>
    simp [sortScored, length_insertScored, ih]

theorem pairwise_insertScored {x : JobMatch} {l : List JobMatch}
    (h : l.Pairwise (fun a b => b.relevance_score ≤ a.relevance_score)) :
    (insertScored x l).Pairwise (fun a b => b.relevance_score ≤ a.relevance_score) := by
  induction l with
  | nil => simp [insertScored]
  | cons y ys ih =>
    rcases List.pairwise_cons.mp h with ⟨hy, hys⟩
    simp only [insertScored]
    by_cases hc : y.relevance_score ≤ x.relevance_score
    · rw [if_pos hc]
      refine List.pairwise_cons.mpr ⟨?_, h⟩
      intro z hz
      rcases List.mem_cons.mp hz with rfl | hz
      · exact hc
      · exact Nat.le_trans (hy z hz) hc
    · rw [if_neg hc]
      refine List.pairwise_cons.mpr ⟨?_, ih hys⟩
      intro z hz
      rcases mem_insertScored.mp hz with rfl | hz
      · omega
      · exact hy z hz

theorem pairwise_sortScored (l : List JobMatch) :
    (sortScored l).Pairwise (fun a b => b.relevance_score ≤ a.relevance_score) := by
  induction l with
  | nil => simp [sortScored]
  | cons x xs ih => exact pairwise_insertScored ih

theorem filter_insertScored (x : JobMatch) (l : List JobMatch) (n : Nat) :
    (insertScored x l).filter (fun m => m.relevance_score == n)
      = if x.relevance_score == n
        then x :: l.filter (fun m => m.relevance_score == n)
        else l.filter (fun m => m.relevance_score == n) := by
  induction l with
  | nil =>
    by_cases h : x.relevance_score = n
    · simp [insertScored, List.filter, h]
    · have hb := beq_eq_false_iff_ne.mpr h
      simp [insertScored, List.filter, hb]
  | cons y ys ih =>
    simp only [insertScored]
    by_cases hc : y.relevance_score ≤ x.relevance_score
    · rw [if_pos hc]
      by_cases h : x.relevance_score = n
      · simp [List.filter, h]
      · have hb := beq_eq_false_iff_ne.mpr h
        simp [List.filter_cons, hb]
    · rw [if_neg hc]
      have hy : (y.relevance_score == n) = false ∨ (x.relevance_score == n) = false := by
        by_cases h1 : y.relevance_score = n
        · right
          apply beq_eq_false_iff_ne.mpr
          omega
        · left
          exact beq_eq_false_iff_ne.mpr h1
      by_cases h : x.relevance_score = n
      · have hyf : (y.relevance_score == n) = false := by
          rcases hy with h' | h'
          · exact h'
          · exact absurd h (by simpa using h')
        simp only [List.filter_cons, hyf, ih, beq_iff_eq, h, if_true]
        simp [hyf]
      · have hf : (x.relevance_score == n) = false := beq_eq_false_iff_ne.mpr h
        simp only [List.filter_cons, ih, hf, if_false]
        rfl

theorem filter_sortScored (l : List JobMatch) (n : Nat) :
    (sortScored l).filter (fun m => m.relevance_score == n)
      = l.filter (fun m => m.relevance_score == n) := by
  induction l with
  | nil => rfl
  | cons x xs ih =>
    simp only [sortScored, filter_insertScored, ih, List.filter_cons]

-- ===== buildMatches lemmas =====

theorem mem_buildMatches {m : JobMatch} {kws : List (List Char)} {jobs : List JobRow}
    (h : m ∈ buildMatches kws jobs) :
    ∃ j ∈ jobs, (scoreJob kws j).1 ≠ [] ∧
      m = { job := jobSummary j, relevance_score := (scoreJob kws j).2,
            matched_skills := (scoreJob kws j).1 } := by
  induction jobs with
  | nil => simp [buildMatches] at h
  | cons j rest ih =>
    simp only [buildMatches] at h
    by_cases he : (scoreJob kws j).1.isEmpty
    · rw [if_pos he] at h
      rcases ih h with ⟨j', hj', hne, hm⟩
      exact ⟨j', List.mem_cons_of_mem j hj', hne, hm⟩
    · rw [if_neg he] at h
      rcases List.mem_cons.mp h with rfl | h
      · refine ⟨j, List.mem_cons_self j rest, ?_, rfl⟩
        intro hnil
        exact he (by simp [hnil])
      · rcases ih h with ⟨j', hj', hne, hm⟩
        exact ⟨j', List.mem_cons_of_mem j hj', hne, hm⟩

theorem length_buildMatches (kws : List (List Char)) (jobs : List JobRow) :
    (buildMatches kws jobs).length
      = (jobs.filter (fun j => !(scoreJob kws j).1.isEmpty)).length := by
  induction jobs with
  | nil => rfl
  | cons j rest ih =>
    simp only [buildMatches, List.filter_cons]
    by_cases he : (scoreJob kws j).1.isEmpty
    · simp [he, ih]
    · have : (!(scoreJob kws j).1.isEmpty) = true := by simp [he]
      simp [he, this, ih]

theorem mem_rankMatches {m : JobMatch} {kws : List (List Char)} {jobs : List JobRow}
    {limit : Nat} (h : m ∈ rankMatches kws jobs limit) :
    ∃ j ∈ jobs, (scoreJob kws j).1 ≠ [] ∧
      m = { job := jobSummary j, relevance_score := (scoreJob kws j).2,
            matched_skills := (scoreJob kws j).1 } := by
  have h1 : m ∈ sortScored (buildMatches kws jobs) :=
    (List.take_sublist limit _).subset h
  exact mem_buildMatches (mem_sortScored.mp h1)

-- ===== Fence-removal lemmas (for the response cleaning) =====

/-- Length of the leading run of the character b. -/
def bCount (b : Char) : List Char → Nat
  | [] => 0
  | c :: rest => if c = b then bCount b rest + 1 else 0

theorem bCount_cons_self (b : Char) (l : List Char) :
    bCount b (b :: l) = bCount b l + 1 := by
  simp [bCount]

theorem bCount_cons_ne {b c : Char} (h : ¬c = b) (l : List Char) :
    bCount b (c :: l) = 0 := by
  simp [bCount, h]

theorem leadsWith_bb_expand (b c d : Char) (r : List Char) :
    leadsWith [b, b] (c :: d :: r) = ((b == c) && ((b == d) && true)) := rfl

theorem leadsWith_bb_dest {b : Char} {x : List Char}
    (h : leadsWith [b, b] x = true) : ∃ r, x = b :: b :: r := by
  cases x with
  | nil => simp [leadsWith] at h
  | cons c x2 =>
    cases x2 with
    | nil => simp [leadsWith] at h
    | cons d x3 =>
      rw [leadsWith_bb_expand, Bool.and_true, Bool.and_eq_true, beq_iff_eq, beq_iff_eq] at h
      exact ⟨x3, by rw [← h.1, ← h.2]⟩

theorem count_two_dest {b : Char} {x : List Char} (h : 2 ≤ bCount b x) :
    ∃ r, x = b :: b :: r := by
  cases x with
  | nil => simp [bCount] at h
  | cons c x2 =>
    by_cases hc : c = b
    · rw [hc, bCount_cons_self] at h
      cases x2 with
      | nil => simp [bCount] at h
      | cons d x3 =>
        by_cases hd : d = b
        · exact ⟨x3, by rw [hc, hd]⟩
        · rw [bCount_cons_ne hd] at h
          omega
    · rw [bCount_cons_ne hc] at h
      omega

theorem leadsWith_bb_of_count {b : Char} {x : List Char}
    (h : bCount b x ≤ 1) : leadsWith [b, b] x = false := by
  cases hl : leadsWith [b, b] x
  · rfl
  · obtain ⟨r, hr⟩ := leadsWith_bb_dest hl
    rw [hr, bCount_cons_self, bCount_cons_self] at h
    omega

theorem count_of_leadsWith_bb {b : Char} {x : List Char}
    (h : leadsWith [b, b] x = false) : bCount b x ≤ 1 := by
  by_contra hx
  obtain ⟨r, hr⟩ := count_two_dest (by omega : 2 ≤ bCount b x)
  rw [hr, leadsWith_bb_expand] at h
  simp at h

theorem rmTriple (b : Char) : ∀ fuel s, s.length ≤ fuel →
    occurs [b, b, b] (removeAllFuel b [b, b] fuel s) = false ∧
    bCount b (removeAllFuel b [b, b] fuel s) ≤ bCount b s ∧
    bCount b (removeAllFuel b [b, b] fuel s) ≤ 2 := by
  intro fuel
  induction fuel with
  | zero =>
    intro s hs
    have : s = [] := List.eq_nil_of_length_eq_zero (Nat.le_zero.mp hs)
    subst this
    exact ⟨rfl, Nat.le_refl _, by simp [bCount, removeAllFuel]⟩
  | succ fuel ih =>
    intro s hs
    cases s with
    | nil => exact ⟨rfl, Nat.le_refl _, by simp [bCount, removeAllFuel]⟩
    | cons c rest =>
      simp only [List.length_cons, Nat.succ_le_succ_iff] at hs
      by_cases hl : leadsWith (b :: [b, b]) (c :: rest) = true
      · -- an occurrence of the pattern at the head: it is removed
        simp only [removeAllFuel, if_pos hl]
        have hl2 : (b == c) = true ∧ leadsWith [b, b] rest = true := by
          have : leadsWith (b :: [b, b]) (c :: rest)
              = ((b == c) && leadsWith [b, b] rest) := rfl
          rw [this, Bool.and_eq_true] at hl
          exact hl
        have hc : c = b := (beq_iff_eq.mp hl2.1).symm
        obtain ⟨r2, hr2⟩ := leadsWith_bb_dest hl2.2
        rw [hc, hr2]
        have hdrop : List.drop [b, b].length (b :: b :: r2) = r2 := rfl
        rw [hdrop]
        have hlen : r2.length ≤ fuel := by
          rw [hr2] at hs
          simp only [List.length_cons] at hs
          omega
        have hres := ih r2 hlen
        refine ⟨hres.1, ?_, hres.2.2⟩
        rw [bCount_cons_self, bCount_cons_self, bCount_cons_self]
        omega
      · -- no occurrence at the head: keep c
        simp only [removeAllFuel, if_neg hl]
        have hres := ih rest hs
        by_cases hc : c = b
        · rw [hc]
          have hbb : leadsWith [b, b] rest = false := by
            by_contra hx
            apply hl
            have hx2 : leadsWith [b, b] rest = true := Bool.of_not_eq_false hx
            have : leadsWith (b :: [b, b]) (c :: rest)
                = ((b == c) && leadsWith [b, b] rest) := rfl
            rw [this, hx2, hc]
            simp
          have hcnt : bCount b rest ≤ 1 := count_of_leadsWith_bb hbb
          have hout : bCount b (removeAllFuel b [b, b] fuel rest) ≤ 1 :=
            Nat.le_trans hres.2.1 hcnt
          refine ⟨?_, ?_, ?_⟩
          · simp only [occurs, Bool.or_eq_false_iff]
            constructor
            · have : leadsWith [b, b, b] (b :: removeAllFuel b [b, b] fuel rest)
                  = ((b == b) && leadsWith [b, b] (removeAllFuel b [b, b] fuel rest)) := rfl
              rw [this, leadsWith_bb_of_count hout]
              simp
            · exact hres.1
          · rw [bCount_cons_self, bCount_cons_self]
            omega
          · rw [bCount_cons_self]
            omega
        · have hbc : (b == c) = false := beq_eq_false_iff_ne.mpr (fun h => hc h.symm)
          refine ⟨?_, ?_, ?_⟩
          · have : leadsWith [b, b, b] (c :: removeAllFuel b [b, b] fuel rest)
                = ((b == c) && leadsWith [b, b] (removeAllFuel b [b, b] fuel rest)) := rfl
            simp only [occurs, this, hbc, Bool.false_and, Bool.false_or]
            exact hres.1
          · rw [bCount_cons_ne hc]
            omega
          · rw [bCount_cons_ne hc]
            omega

theorem removeAll_no_triple (b : Char) (s : List Char) :
    occurs [b, b, b] (removeAll b [b, b] s) = false :=
  (rmTriple b s.length s (Nat.le_refl _)).1

theorem fence_chars : "```".data = [Char.ofNat 96, Char.ofNat 96, Char.ofNat 96] := by decide

theorem jsonFence_chars : "```json".data = "```".data ++ "json".data := by decide

theorem occurs_trimL_false {pat l : List Char}
    (h : occurs pat l = false) : occurs pat (trimL l) = false := by
  by_contra hx
  rw [occurs_trimL (Bool.of_not_eq_false hx)] at h
  cases h

theorem removeAllL_fence_no_fence (z : List Char) :
    occurs "```".data (removeAllL "```".data z) = false := by
  rw [fence_chars]
  exact removeAll_no_triple (Char.ofNat 96) z

-- ===== Whitespace-stripping algebra (for the fallback line processing) =====

theorem dropWhileWs_ws_append {w : List Char} (hw : ∀ c ∈ w, pyWs c = true)
    (x : List Char) : dropWhileWs (w ++ x) = dropWhileWs x := by
  induction w with
  | nil => rfl
  | cons c rest ih =>
    have hc := hw c (List.mem_cons_self c rest)
    simp only [List.cons_append, dropWhileWs, hc, if_true]
    exact ih (fun d hd => hw d (List.mem_cons_of_mem c hd))

theorem dropWhileWs_ws {w : List Char} (hw : ∀ c ∈ w, pyWs c = true) :
    dropWhileWs w = [] := by
  have := dropWhileWs_ws_append hw []
  simpa using this

theorem dropTrailWs_ws {w : List Char} (hw : ∀ c ∈ w, pyWs c = true) :
    dropTrailWs w = [] := by
  induction w with
  | nil => rfl
  | cons c rest ih =>
    have hr := ih (fun d hd => hw d (List.mem_cons_of_mem c hd))
    simp [dropTrailWs, hr, hw c (List.mem_cons_self c rest)]

theorem dropTrailWs_append_ws (x : List Char) {w : List Char}
    (hw : ∀ c ∈ w, pyWs c = true) : dropTrailWs (x ++ w) = dropTrailWs x := by
  induction x with
  | nil => simpa using dropTrailWs_ws hw
  | cons c rest ih =>
    have ih2 : dropTrailWs (rest.append w) = dropTrailWs rest := ih
    simp only [List.cons_append, dropTrailWs]
    rw [ih2]

theorem dropWhileWs_no_ws_head {c : Char} {t : List Char} (hc : pyWs c = false) :
    dropWhileWs (c :: t) = c :: t := by
  simp [dropWhileWs, hc]

theorem dropWhileWs_head_no_ws {l : List Char} {c : Char} {t : List Char}
    (h : dropWhileWs l = c :: t) : pyWs c = false := by
  induction l with
  | nil => cases h
  | cons d rest ih =>
    by_cases hd : pyWs d = true
    · simp only [dropWhileWs, hd, if_true] at h
      exact ih h
    · simp only [dropWhileWs, hd, if_false] at h
      cases h
      simpa using hd

theorem trimL_ws_append {w : List Char} (hw : ∀ c ∈ w, pyWs c = true)
    (x : List Char) : trimL (w ++ x) = trimL x := by
  unfold trimL
  rw [dropWhileWs_ws_append hw]

theorem trimL_append_ws (x : List Char) {w : List Char}
    (hw : ∀ c ∈ w, pyWs c = true) : trimL (x ++ w) = trimL x := by
  unfold trimL
  rcases exists_dropWhileWs x with ⟨w1, hw1, hws1⟩
  have hx : x ++ w = w1 ++ (dropWhileWs x ++ w) := by
    rw [← List.append_assoc, ← hw1]
  rw [hx, dropWhileWs_ws_append hws1]
  cases hd : dropWhileWs x with
  | nil =>
    simp [dropWhileWs_ws hw, dropTrailWs]
  | cons c t =>
    have hc : pyWs c = false := dropWhileWs_head_no_ws hd
    rw [List.cons_append, dropWhileWs_no_ws_head hc, ← List.cons_append,
      dropTrailWs_append_ws (c :: t) hw]

theorem removeCh_ws {c : Char} {w : List Char} (hw : ∀ d ∈ w, pyWs d = true) :
    ∀ d ∈ removeCh c w, pyWs d = true :=
  fun d hd => hw d (List.mem_of_mem_filter hd)

theorem removeCh_append (c : Char) (x y : List Char) :
    removeCh c (x ++ y) = removeCh c x ++ removeCh c y := by
  simp [removeCh, List.filter_append]

theorem processLine_eq (l : List Char) : processLine l = specProcessLine l := by
  unfold processLine specProcessLine
  rcases exists_dropWhileWs l with ⟨w1, hw1, hws1⟩
  rcases exists_dropTrailWs (dropWhileWs l) with ⟨w2, hw2, hws2⟩
  have hTriml : trimL l = dropTrailWs (dropWhileWs l) := rfl
  have step1 : removeCh ',' (removeCh '"' l)
      = removeCh ',' (removeCh '"' w1) ++ removeCh ',' (removeCh '"' (dropWhileWs l)) := by
    conv_lhs => rw [hw1]
    rw [removeCh_append, removeCh_append]
  have hwsA : ∀ d ∈ removeCh ',' (removeCh '"' w1), pyWs d = true :=
    removeCh_ws (removeCh_ws hws1)
  rw [step1, trimL_ws_append hwsA]
  have step2 : removeCh ',' (removeCh '"' (dropWhileWs l))
      = removeCh ',' (removeCh '"' (dropTrailWs (dropWhileWs l)))
        ++ removeCh ',' (removeCh '"' w2) := by
    conv_lhs => rw [hw2]
    rw [removeCh_append, removeCh_append]
  have hwsB : ∀ d ∈ removeCh ',' (removeCh '"' w2), pyWs d = true :=
    removeCh_ws (removeCh_ws hws2)
  rw [step2, trimL_append_ws _ hwsB, hTriml]

theorem fallbackLoop_eq (lines : List (List Char)) :
    fallbackLoop lines = (lines.map processLine).filter keepLine := by
  induction lines with
  | nil => rfl
  | cons line rest ih =>
    simp only [fallbackLoop, List.map_cons, List.filter_cons, ih]

-- ===== Concrete inputs used by the claim theorems =====

/-- The posting of the spec scenario: title mentioning Python, description
mentioning docker. -/
def jobScenario : JobRow :=
  { id := 1, job_name := none, title := some "Python Backend Engineer",
    link := none, description := some "We use docker daily",
    experience_level := none, location := none, company := none,
    salary_range := none, job_type := none, remote_option := none }

/-- A posting whose only non-null column is an empty title.  It is retrieved
for the empty keyword (ilike matches any non-null column) yet scores 0
because an empty string is falsy in Python. -/
def jobEmptyTitle : JobRow :=
  { id := 2, job_name := none, title := some "", link := none,
    description := none, experience_level := none, location := none,
    company := none, salary_range := none, job_type := none,
    remote_option := none }

/-- A posting with a 251-character description. -/
def jobLongDesc : JobRow :=
  { id := 3, job_name := none, title := some "Data Engineer", link := none,
    description := some (String.mk (List.replicate 251 'd')),
    experience_level := none, location := none, company := none,
    salary_range := none, job_type := none, remote_option := none }

/-- The match produced for jobScenario by keywords python and docker. -/
def matchScenario : JobMatch :=
  { job := jobSummary jobScenario, relevance_score := 4,
    matched_skills := [ "python".data, "docker".data ] }

/-- A bulk-create record violating the 255-character title column. -/
def badCreate : JobCreate :=
  { job_name := none, title := String.mk (List.replicate 256 'x'),
    link := none, description := none, experience_level := none,
    location := none, company := none, salary_range := none,
    job_type := none, remote_option := none }

/-- A well-formed bulk-create record. -/
def goodCreate : JobCreate :=
  { job_name := none, title := "Backend Developer", link := none,
    description := none, experience_level := none, location := none,
    company := some "StartupXYZ", salary_range := none, job_type := none,
    remote_option := none }

/-- First key of a dict value (empty string otherwise). -/
def firstKey : PyValue → String
  | .pyDict ((k, _) :: _) => k
  | _ => ""

-- ===== Claim theorems =====

/-- Claim C1, amended: when every keyword is non-empty and contains no space
character, every returned match has relevance_score at least 1 and a
non-empty matched_skills list.  (As stated over all keyword lists the claim
fails: a keyword can match only the concatenated job text, or an empty
keyword can match a falsy field, leaving a returned match with score 0.) -/
theorem claim1_score_positive (kws : List (List Char)) (jobs : List JobRow)
    (limit : Nat) (hk : ∀ kw ∈ kws, kw ≠ [] ∧ ' ' ∉ kw) :
    ∀ m ∈ rankMatches kws jobs limit,
      1 ≤ m.relevance_score ∧ m.matched_skills ≠ [] := by
  intro m hm
  obtain ⟨j, hj, hne, rfl⟩ := mem_rankMatches hm
  exact ⟨scoreJob_pos j kws hk hne, hne⟩

/-- Witness for claim C1 at the scenario posting and keywords. -/
theorem claim1_witness :
    1 ≤ matchScenario.relevance_score ∧ matchScenario.matched_skills ≠ [] :=
  claim1_score_positive [ "python".data, "docker".data ] [jobScenario] 10
    (by decide) matchScenario (by decide)

/-- Counterexample to claim C1 as stated: the empty keyword (a skill that is
pure whitespace) matches the job text of a posting whose only column is an
empty title, so a match with relevance_score 0 is returned. -/
theorem claim1_counterexample :
    ¬ (∀ m ∈ rankMatches [ [] ] [jobEmptyTitle] 10,
        1 ≤ m.relevance_score ∧ m.matched_skills ≠ []) := by
  decide

/-- Claim C2, amended: when every keyword is non-empty, the relevance score
equals the spec formula (sum over keywords of 3 for a title containment plus
2 for a job_name containment plus 1 for a description containment, all
fields contributing simultaneously); and the spec scenario evaluates to
score 4 with matched_skills python, docker.  (For an empty keyword and an
empty-string column the code's truthiness guard drops the field weight,
refuting the unrestricted claim.) -/
theorem claim2_score_formula :
    (∀ (kws : List (List Char)) (j : JobRow), (∀ kw ∈ kws, kw ≠ []) →
      (scoreJob kws j).2 = specScore kws j) ∧
    scoreJob [ "python".data, "docker".data ] jobScenario
      = ([ "python".data, "docker".data ], 4) := by
  constructor
  · intro kws j hk
    exact scoreJob_eq_spec j kws hk
  · decide

/-- Witness for claim C2 at the scenario posting. -/
theorem claim2_witness :
    (scoreJob [ "python".data, "docker".data ] jobScenario).2
      = specScore [ "python".data, "docker".data ] jobScenario :=
  claim2_score_formula.1 [ "python".data, "docker".data ] jobScenario (by decide)

/-- Counterexample to claim C2 as stated: with the empty keyword and a
posting whose title is the empty string, the code scores 0 while the spec
formula gives 3 (the empty string is a substring of every field). -/
theorem claim2_counterexample :
    (scoreJob [ [] ] jobEmptyTitle).2 = 0 ∧ specScore [ [] ] jobEmptyTitle = 3 ∧
    (scoreJob [ [] ] jobEmptyTitle).2 ≠ specScore [ [] ] jobEmptyTitle := by
  decide

/-- Claim C3, amended: the returned list is non-increasing in
relevance_score; the sort is stable (for every score value, the entries with
that score keep the order in which the candidates were scored); the output
length is at most the limit and at most the number of retrieved candidates
with at least one matched keyword.  (The original bound, the number of
candidates with non-zero score, fails because a candidate can be kept with
score 0.) -/
theorem claim3_rank_sorted (kws : List (List Char)) (jobs : List JobRow)
    (limit : Nat) :
    (rankMatches kws jobs limit).Pairwise
      (fun a b => b.relevance_score ≤ a.relevance_score) ∧
    (∀ n, (sortScored (buildMatches kws jobs)).filter
        (fun m => m.relevance_score == n)
      = (buildMatches kws jobs).filter (fun m => m.relevance_score == n)) ∧
    (rankMatches kws jobs limit).length ≤ limit ∧
    (rankMatches kws jobs limit).length
      ≤ (jobs.filter (fun j => !(scoreJob kws j).1.isEmpty)).length := by
  have hlen : (rankMatches kws jobs limit).length
      = min limit (sortScored (buildMatches kws jobs)).length := by
    rw [rankMatches, List.length_take]
  refine ⟨?_, fun n => filter_sortScored _ n, ?_, ?_⟩
  · exact List.Pairwise.sublist (List.take_sublist _ _) (pairwise_sortScored _)
  · rw [hlen]
    exact Nat.min_le_left _ _
  · rw [hlen]
    calc min limit (sortScored (buildMatches kws jobs)).length
        ≤ (sortScored (buildMatches kws jobs)).length := Nat.min_le_right _ _
      _ = (jobs.filter (fun j => !(scoreJob kws j).1.isEmpty)).length := by
          rw [length_sortScored, length_buildMatches]

/-- Counterexample to claim C3 as stated: with the empty keyword and the
empty-title posting, the returned list has length 1 although no candidate
has non-zero score. -/
theorem claim3_counterexample :
    (rankMatches [ [] ] [jobEmptyTitle] 10).length = 1 ∧
    ([jobEmptyTitle].filter (fun j => decide (0 < (scoreJob [ [] ] j).2))).length
      = 0 := by
  decide

/-- Claim C4: every returned match's job dict comes from a retrieved
posting, and whenever the source description is longer than 250 characters
the summary description is exactly 253 characters and ends with the ellipsis
marker. -/
theorem claim4_desc_truncation :
    (∀ (kws : List (List Char)) (jobs : List JobRow) (limit : Nat),
      ∀ m ∈ rankMatches kws jobs limit, ∃ j ∈ jobs, m.job = jobSummary j) ∧
    (∀ (j : JobRow) (s : String), j.description = some s →
      250 < s.data.length → ∀ t, (jobSummary j).description = some t →
        t.data.length = 253 ∧ "...".data <:+ t.data) := by
  constructor
  · intro kws jobs limit m hm
    obtain ⟨j, hj, -, rfl⟩ := mem_rankMatches hm
    exact ⟨j, hj, rfl⟩
  · intro j s hd hlen t ht
    have hne : s.data.isEmpty = false := by
      cases hs : s.data with
      | nil => rw [hs] at hlen; simp at hlen
      | cons a l => rfl
    have hdec : decide (250 < s.data.length) = true := decide_eq_true hlen
    simp only [jobSummary, hd, truncDescription, hne, hdec, Bool.not_false,
      Bool.and_self, if_true, Option.some.injEq] at ht
    constructor
    · rw [← ht]
      simp only [String.length, List.length_append, List.length_take]
      have h3 : "...".data.length = 3 := by decide
      rw [h3]
      omega
    · rw [← ht]
      exact List.suffix_append _ _

set_option maxRecDepth 4000 in
/-- Witness for claim C4 at a posting with a 251-character description. -/
theorem claim4_witness :
    (String.mk (List.replicate 250 'd' ++ "...".data)).data.length = 253 ∧
    "...".data <:+ (String.mk (List.replicate 250 'd' ++ "...".data)).data :=
  claim4_desc_truncation.2 jobLongDesc (String.mk (List.replicate 251 'd'))
    rfl (by decide) (String.mk (List.replicate 250 'd' ++ "...".data)) (by decide)

/-- Claim C5: on a JSON parse failure the fallback skills are exactly the
split lines which, whitespace-stripped and with quote and comma characters
removed, are non-empty, longer than 2 characters, and do not start with a
brace; the accompanying summary, strengths and improvements are the fixed
generic values; and no error reaches the caller (the fallback analysis is
returned). -/
theorem claim5_fallback (txt : String) :
    fallbackSkills txt = ((splitNl txt.data).map specProcessLine).filter keepLine ∧
    pyLookup (fallbackKvs txt) "summary" = some (.pyStr "CV analysis completed") ∧
    pyLookup (fallbackKvs txt) "strengths"
      = some (.pyList [.pyStr "Experience in multiple technologies"]) ∧
    pyLookup (fallbackKvs txt) "improvements"
      = some (.pyList [.pyStr "Consider adding more specific achievements"]) ∧
    parseCvResponse txt none = .pyDict (fallbackKvs txt) := by
  refine ⟨?_, rfl, rfl, rfl, rfl⟩
  rw [fallbackSkills, fallbackLoop_eq]
  have hpe : processLine = specProcessLine := funext processLine_eq
  rw [hpe]

/-- Claim C6: an empty extracted-skills list yields the explicit
no-skills-extracted response with an empty job list, and that response
differs from the one produced by any non-empty skills list that matched
zero postings. -/
theorem claim6_no_skills_response (cv_kvs cv_kvs2 : List (String × PyValue))
    (retrieved retrieved2 : List JobRow) (limit limit2 : Nat)
    (skills : List String) :
    uploadOutcome cv_kvs [] retrieved limit
      = .pyDict [("cv_review", .pyDict cv_kvs), ("matching_jobs", .pyList []),
                 ("message", .pyStr "No skills extracted - unable to match jobs")] ∧
    (skills ≠ [] → rankMatches (mkKeywords skills) retrieved2 limit2 = [] →
      uploadOutcome cv_kvs2 skills retrieved2 limit2
        ≠ uploadOutcome cv_kvs [] retrieved limit) := by
  constructor
  · rfl
  · intro hs hzero heq
    have hne : skills.isEmpty = false := by
      cases skills with
      | nil => exact absurd rfl hs
      | cons a l => rfl
    have h1 : firstKey (uploadOutcome cv_kvs2 skills retrieved2 limit2)
        = "success" := by
      unfold uploadOutcome
      rw [hne]
      rfl
    have h2 : firstKey (uploadOutcome cv_kvs [] retrieved limit)
        = "cv_review" := rfl
    rw [heq, h2] at h1
    exact absurd h1 (by decide)

/-- Witness for claim C6: a skills list with one entry and no stored jobs. -/
theorem claim6_witness :
    uploadOutcome [] ["python"] [] 5 ≠ uploadOutcome [] [] [] 5 :=
  (claim6_no_skills_response [] [] [] [] 5 5 ["python"]).2 (by decide) rfl

/-- Claim C7, amended: when the cleaned response parses as a JSON object
without a skills entry, the skills default to the empty list with no error.
(As stated over every JSON value the claim fails: a non-object value such
as an empty array has no skills entry, yet dict.get raises AttributeError,
which the json-only handler does not catch.) -/
theorem claim7_skills_default (kvs : List (String × PyValue))
    (h : pyLookup kvs "skills" = none) :
    pyGet (.pyDict kvs) "skills" (.pyList []) = .ok (.pyList []) := by
  simp [pyGet, h]

/-- Witness for claim C7 at an object carrying only a summary. -/
theorem claim7_witness :
    pyGet (.pyDict [("summary", .pyStr "fine")]) "skills" (.pyList [])
      = .ok (.pyList []) :=
  claim7_skills_default [("summary", .pyStr "fine")] rfl

/-- Counterexample to claim C7 as stated: the JSON value of an empty array
has no skills entry but produces an AttributeError instead of the default. -/
theorem claim7_counterexample :
    hasKey (.pyList []) "skills" = false ∧
    pyGet (.pyList []) "skills" (.pyList []) = .error "AttributeError" ∧
    pyGet (.pyList []) "skills" (.pyList []) ≠ .ok (.pyList []) := by
  refine ⟨rfl, rfl, ?_⟩
  intro h
  simp [pyGet] at h

/-- Claim C8: bulk create is all-or-nothing.  If any record in the batch is
invalid the whole request fails with a 500 reply and the committed store is
unchanged; in every case the store either gains exactly the whole batch or
nothing. -/
theorem claim8_bulk_all_or_nothing (committed jobs : List JobCreate) :
    ((∃ jb ∈ jobs, validCreate jb = false) →
      (create_jobs_bulk ⟨committed, []⟩ jobs).1.committed = committed ∧
      (create_jobs_bulk ⟨committed, []⟩ jobs).1.pending = [] ∧
      isErrorReply (create_jobs_bulk ⟨committed, []⟩ jobs).2 = true) ∧
    (((create_jobs_bulk ⟨committed, []⟩ jobs).1.committed = committed ++ jobs ∧
        isErrorReply (create_jobs_bulk ⟨committed, []⟩ jobs).2 = false) ∨
      ((create_jobs_bulk ⟨committed, []⟩ jobs).1.committed = committed ∧
        isErrorReply (create_jobs_bulk ⟨committed, []⟩ jobs).2 = true)) := by
  constructor
  · intro hinv
    have hall : jobs.all validCreate = false := by
      cases hx : jobs.all validCreate
      · rfl
      · rcases hinv with ⟨jb, hjb, hval⟩
        have := List.all_eq_true.mp hx jb hjb
        rw [hval] at this
        cases this
    simp [create_jobs_bulk, dbAddAll, dbCommit, dbRollback, hall, isErrorReply]
  · by_cases hx : jobs.all validCreate = true
    · left
      simp [create_jobs_bulk, dbAddAll, dbCommit, hx, isErrorReply]
    · right
      have hall : jobs.all validCreate = false := by
        cases h2 : jobs.all validCreate
        · rfl
        · exact absurd h2 hx
      simp [create_jobs_bulk, dbAddAll, dbCommit, dbRollback, hall, isErrorReply]

set_option maxRecDepth 4000 in
/-- Witness for claim C8: a batch of one valid and one invalid record leaves
the store unchanged and reports an error. -/
theorem claim8_witness :
    (create_jobs_bulk ⟨[], []⟩ [goodCreate, badCreate]).1.committed = [] ∧
    (create_jobs_bulk ⟨[], []⟩ [goodCreate, badCreate]).1.pending = [] ∧
    isErrorReply (create_jobs_bulk ⟨[], []⟩ [goodCreate, badCreate]).2 = true :=
  (claim8_bulk_all_or_nothing [] [goodCreate, badCreate]).1
    ⟨badCreate, by decide, by decide⟩

/-- Claim C9, amended: when the stripped response starts with a code fence,
every occurrence of the fence markers is removed before parsing; when it
does not, the text is parsed exactly as stripped, so markers elsewhere
survive.  (The original claim, that the markers are always stripped, fails
on any response that merely contains a fence without starting with one.) -/
theorem claim9_fence_cleaning (txt : String) :
    (leadsWith "```".data (trimL txt.data) = true →
      occurs "```".data (cleanResponse txt) = false ∧
      occurs "```json".data (cleanResponse txt) = false) ∧
    (leadsWith "```".data (trimL txt.data) = false →
      cleanResponse txt = trimL txt.data) := by
  constructor
  · intro hstart
    have main : ∀ z : List Char,
        occurs "```".data (trimL (removeAllL "```".data z)) = false ∧
        occurs "```json".data (trimL (removeAllL "```".data z)) = false := by
      intro z
      have h3 : occurs "```".data (trimL (removeAllL "```".data z)) = false :=
        occurs_trimL_false (removeAllL_fence_no_fence z)
      refine ⟨h3, ?_⟩
      by_contra hx
      have hocc := Bool.of_not_eq_false hx
      rw [jsonFence_chars] at hocc
      have := occurs_pat_append_left hocc
      rw [this] at h3
      cases h3
    simp only [cleanResponse]
    by_cases hj : leadsWith "```json".data (trimL txt.data) = true
    · rw [if_pos hj]
      exact main _
    · rw [if_neg hj, if_pos hstart]
      exact main _
  · intro hstart
    have hj : ¬ leadsWith "```json".data (trimL txt.data) = true := by
      intro hx
      rw [jsonFence_chars] at hx
      have := leadsWith_append_left hx
      rw [this] at hstart
      cases hstart
    simp only [cleanResponse]
    rw [if_neg hj, if_neg (by rw [hstart]; exact Bool.false_ne_true)]

/-- Witness for claim C9 on a fenced response: after cleaning, no marker
remains. -/
theorem claim9_witness :
    occurs "```".data (cleanResponse "```json summary skills```") = false ∧
    occurs "```json".data (cleanResponse "```json summary skills```") = false :=
  (claim9_fence_cleaning "```json summary skills```").1 (by decide)

/-- Counterexample to claim C9 as stated: a response that contains fence
markers without starting with one reaches the parser with both markers
intact. -/
theorem claim9_counterexample :
    occurs "```".data (cleanResponse "egg ```json") = true ∧
    occurs "```json".data (cleanResponse "egg ```json") = true := by
  decide

/-- Claim C10: every returned match's matched_skills is an order-preserving
sublist of the keyword list (so it has no duplicates beyond those of the
input), and the relevance score is at most 6 times the number of matched
keywords. -/
theorem claim10_matched_invariants (kws : List (List Char)) (jobs : List JobRow)
    (limit : Nat) : ∀ m ∈ rankMatches kws jobs limit,
      m.matched_skills.Sublist kws ∧
      (∀ kw, m.matched_skills.count kw ≤ kws.count kw) ∧
      m.relevance_score ≤ 6 * m.matched_skills.length := by
  intro m hm
  obtain ⟨j, hj, -, rfl⟩ := mem_rankMatches hm
  exact ⟨scoreJob_sublist kws j,
    fun kw => List.Sublist.count_le (scoreJob_sublist kws j) kw,
    scoreJob_le kws j⟩

/-- Witness for claim C10 at the scenario match. -/
theorem claim10_witness :
    matchScenario.matched_skills.Sublist [ "python".data, "docker".data ] ∧
    matchScenario.relevance_score ≤ 6 * matchScenario.matched_skills.length := by
  have h := claim10_matched_invariants [ "python".data, "docker".data ]
    [jobScenario] 10 matchScenario (by decide)
  exact ⟨h.1, h.2.2⟩

end Resumflus
